import Mathlib

/-!
Verification of the spec of `libredex/ImmutableSubcomponentAnalyzer` against a
shallow embedding of its code.

The repository provides the header `ImmutableSubcomponentAnalyzer.h`, which
contains the full `AccessPath` value type (constructors with their
`always_assert_log` preconditions, accessors, data layout).  The analyzer
implementation (fixpoint engine, transfer function, queries, `operator==`,
`hash_value`) lives in the corresponding `.cpp` file which is not part of the
sources; those parts are modelled from the spec, and each such definition says
so in its doc comment.

Modelling conventions:
- `DexMethodRef*` pointers are opaque identities, modelled as `Nat`.
- `DexField*` pointers are modelled as `Option DexField` (null = `none`),
  where `DexField` carries its access-flag bits.
- `size_t` is modelled as `Nat`; where the code uses
  `std::numeric_limits<size_t>::max()` we use the explicit 64-bit value.
- `always_assert_log` aborts the process on a false condition; a constructor
  whose body contains such an assertion is modelled as a function into
  `Except String _`, with `Except.error` marking the fatal assertion failure.
-/

/-- Opaque identity of a `DexMethodRef*` pointer. -/
abbrev DexMethodRef := Nat

/-- Register number (`reg_t` / `size_t` register indices in the code). -/
abbrev Reg := Nat

/-- A `DexField`, reduced to the data the header reads: an identity and the
access-flag bits returned by `get_access()`. -/
structure DexField where
  id : Nat
  access : Nat
deriving DecidableEq

/-- The `ACC_FINAL` access-flag bit (0x10 in the dex format). -/
def ACC_FINAL : Nat := 16

/-- The check `(field->get_access() & ACC_FINAL) == ACC_FINAL` from the
four-argument `AccessPath` constructor. -/
def DexField.isFinal (f : DexField) : Bool := decide (f.access &&& ACC_FINAL = ACC_FINAL)

/-- `enum class AccessPathKind { Parameter, Local, FinalField, Unknown }`. -/
inductive AccessPathKind where
  | Parameter
  | Local
  | FinalField
  | Unknown
deriving DecidableEq

/-- `std::numeric_limits<size_t>::max()` for a 64-bit `size_t`. -/
def SIZE_MAX : Nat := 18446744073709551615

/-- The `AccessPath` value type: members `m_kind`, `m_parameter`, `m_getters`,
`m_field` of the C++ class, in declaration order.  The `DexField*` member is
`Option DexField` (null pointer = `none`). -/
structure AccessPath where
  kind : AccessPathKind
  parameter : Nat
  getters : List DexMethodRef
  field : Option DexField
deriving DecidableEq

/-- The default `AccessPath()` constructor: kind `Unknown`, parameter
`std::numeric_limits<size_t>::max()`, empty getters, null field. -/
def AccessPath.ctorDefault : AccessPath :=
  { kind := AccessPathKind.Unknown, parameter := SIZE_MAX, getters := [], field := none }

/-- The distinguished `Unknown` access path (what default construction
produces). -/
abbrev AccessPath.unknown : AccessPath := AccessPath.ctorDefault

/-- The two-argument constructor `AccessPath(AccessPathKind kind, size_t
parameter)`: empty getters, null field, no assertion of any kind. -/
def AccessPath.ctorRoot (kind : AccessPathKind) (parameter : Nat) : AccessPath :=
  { kind := kind, parameter := parameter, getters := [], field := none }

/-- The three-argument constructor `AccessPath(kind, parameter, getters)`:
null field, with `always_assert_log(kind != AccessPathKind::FinalField, "Must
specify a field ref")`. -/
def AccessPath.ctorGetters (kind : AccessPathKind) (parameter : Nat)
    (getters : List DexMethodRef) : Except String AccessPath :=
  if kind = AccessPathKind.FinalField then Except.error "Must specify a field ref"
  else Except.ok { kind := kind, parameter := parameter, getters := getters, field := none }

/-- The four-argument constructor `AccessPath(kind, parameter, field, getters)`
with its assertions: for kind `FinalField` the field must be non-null
("Must specify a field.") and final ("Field should be final!"); for any other
kind the field must be null ("Field not relevant for kind."). -/
def AccessPath.ctorField (kind : AccessPathKind) (parameter : Nat)
    (fld : Option DexField) (getters : List DexMethodRef) : Except String AccessPath :=
  if kind = AccessPathKind.FinalField then
    match fld with
    | none => Except.error "Must specify a field."
    | some f =>
      if f.isFinal then
        Except.ok { kind := kind, parameter := parameter, getters := getters, field := some f }
      else Except.error "Field should be final!"
  else
    match fld with
    | none => Except.ok { kind := kind, parameter := parameter, getters := getters, field := none }
    | some _ => Except.error "Field not relevant for kind."

/-- Whether an `Except`-modelled constructor ran to completion (no fatal
assertion failure). -/
def isOkE (e : Except String AccessPath) : Bool :=
  match e with
  | Except.ok _ => true
  | Except.error _ => false

/-- Modelled from the spec: `operator==(const AccessPath&, const AccessPath&)`
is declared in the header but defined in the missing `.cpp`.  Per spec section 3,
two access paths are equal iff kind, parameter index, field, and getter
sequence (in order) are all equal. -/
def eqAP (x y : AccessPath) : Bool :=
  decide (x.kind = y.kind) && decide (x.parameter = y.parameter) &&
    decide (x.field = y.field) && decide (x.getters = y.getters)

/-- Numeric tag of an `AccessPathKind`, for hashing. -/
def AccessPathKind.tag : AccessPathKind → Nat
  | AccessPathKind.Parameter => 0
  | AccessPathKind.Local => 1
  | AccessPathKind.FinalField => 2
  | AccessPathKind.Unknown => 3

/-- One hash-combination step (64-bit multiplicative mixing). -/
def hashCombine (seed h : Nat) : Nat := (seed * 1099511628211 + h) % 18446744073709551616

/-- Modelled from the spec: `hash_value(const AccessPath&)` is declared in the
header but defined in the missing `.cpp`.  It hashes the four components, so
equal paths hash equal. -/
def hash_value (p : AccessPath) : Nat :=
  let s0 := hashCombine 14695981039346656037 p.kind.tag
  let s1 := hashCombine s0 p.parameter
  let s2 := hashCombine s1 (match p.field with | none => 0 | some f => f.id + 1)
  p.getters.foldl hashCombine s2

/-- A binding state: the register-to-access-path mapping at one program point.
Per spec section 3 the mapping is implicitly total, absent entries behaving as
`Unknown`; we model it as a total function whose value off the bound registers
is `AccessPath.unknown`. -/
abbrev BindingState := Reg → AccessPath

/-- Modelled from the spec: the per-register join of the abstract domain
(implemented in the missing `.cpp` via the abstract-domain combinators).  Per
spec section 4.2: if both sides hold an identical access path, keep it;
otherwise the result is `Unknown`. -/
def joinVal (x y : AccessPath) : AccessPath :=
  if x = y then x else AccessPath.unknown

/-- Modelled from the spec: join of two binding states, computed per register. -/
def joinBS (s t : BindingState) : BindingState :=
  fun r => joinVal (s r) (t r)

/-- Binding-state update: bind register `d` to `v`. -/
def setReg (s : BindingState) (d : Reg) (v : AccessPath) : BindingState :=
  fun r => if r = d then v else s r

/-- Modelled from the spec: the instruction categories the transfer function of
spec section 4.3 distinguishes (`IRInstruction` itself is outside the sources).
`move` is a register copy, `invoke` a call with a receiver and a result
register, `iget` a field read, `other` any other instruction together with the
register it writes, if any. -/
inductive Instruction where
  | move (dest src : Reg)
  | invoke (dest recv : Reg) (m : DexMethodRef)
  | iget (dest recv : Reg) (f : DexField)
  | other (dest : Option Reg)
deriving DecidableEq

/-- The registers an instruction mentions (written or read). -/
def instrRegs : Instruction → List Reg
  | Instruction.move d s => [d, s]
  | Instruction.invoke d r _ => [d, r]
  | Instruction.iget d r _ => [d, r]
  | Instruction.other (some d) => [d]
  | Instruction.other none => []

/-- Modelled from the spec: extending a receiver's access path by one getter
(spec section 4.3).  If the receiver's path is `Unknown`, the result is
`Unknown`; otherwise the getter is appended to the getter sequence. -/
def extendGetter (p : AccessPath) (m : DexMethodRef) : AccessPath :=
  if p.kind = AccessPathKind.Unknown then AccessPath.unknown
  else { p with getters := p.getters ++ [m] }

/-- Modelled from the spec: effect of a final-field read on a traced receiver
path (spec sections 3 and 4.3).  An access path holds at most one final-field
read, at the root, so the read is representable exactly when the receiver is a
bare `Parameter`/`Local` root; anything else degrades to `Unknown`. -/
def extendFinalField (p : AccessPath) (f : DexField) : AccessPath :=
  if (p.kind = AccessPathKind.Parameter ∨ p.kind = AccessPathKind.Local) ∧ p.getters = [] then
    { kind := AccessPathKind.FinalField, parameter := p.parameter, getters := [],
      field := some f }
  else AccessPath.unknown

/-- Modelled from the spec: the transfer function of spec section 4.3.  A copy
propagates the source's path; a call to a method satisfying the caller-supplied
getter predicate extends the receiver's path; a final-field read extends the
receiver's path with the field; every other register write clobbers the
destination to `Unknown`; instructions that write no register pass the state
through. -/
def transfer (g : DexMethodRef → Bool) (s : BindingState) : Instruction → BindingState
  | Instruction.move d src => setReg s d (s src)
  | Instruction.invoke d recv m =>
      if g m then setReg s d (extendGetter (s recv) m) else setReg s d AccessPath.unknown
  | Instruction.iget d recv f =>
      if f.isFinal then setReg s d (extendFinalField (s recv) f)
      else setReg s d AccessPath.unknown
  | Instruction.other (some d) => setReg s d AccessPath.unknown
  | Instruction.other none => s

/-- Threading the transfer function across a list of instructions in program
order. -/
def threadList (g : DexMethodRef → Bool) (insns : List Instruction) (s : BindingState) :
    BindingState :=
  insns.foldl (fun st i => transfer g st i) s

/-- Modelled from the spec: a basic block of the control-flow graph (spec
section 6): an ordered instruction list plus predecessor edges.  Blocks are
identified by their index in the program's block list; index 0 is the unique
entry block, which has no predecessors. -/
structure Block where
  insns : List Instruction
  preds : List Nat

/-- Modelled from the spec: an analyzed method, as the analysis consumes it:
its control-flow graph, its parameter registers in declared order, and the
caller-supplied immutable-getter predicate (spec section 6). -/
structure Program where
  blocks : List Block
  params : List Reg
  isGetter : DexMethodRef → Bool

/-- List lookup with an explicit default (out-of-range yields the default). -/
def nthD {α : Type} : List α → Nat → α → α
  | [], _, d => d
  | a :: _, 0, _ => a
  | _ :: l, n + 1, d => nthD l n d

/-- Build the list `[f 0, f 1, ..., f (n-1)]`. -/
def tabulate {α : Type} (f : Nat → α) : Nat → List α
  | 0 => []
  | n + 1 => f 0 :: tabulate (fun i => f (i + 1)) n

/-- The instruction list of block `b` (empty for an out-of-range index). -/
def blkInsns (p : Program) (b : Nat) : List Instruction :=
  (nthD p.blocks b { insns := [], preds := [] }).insns

/-- All registers the analysis can ever bind: the parameter registers plus
every register mentioned by an instruction of the program. -/
def allRegs (p : Program) : List Reg :=
  p.params ++ p.blocks.flatMap (fun bl => bl.insns.flatMap instrRegs)

/-- Bind the parameter registers, in declared order, to fresh empty `Parameter`
paths (parameter `i` gets the empty path `AccessPath(Parameter, i)`). -/
def bindParams : List Reg → Nat → BindingState → BindingState
  | [], _, s => s
  | r :: rest, i, s =>
      bindParams rest (i + 1) (setReg s r (AccessPath.ctorRoot AccessPathKind.Parameter i))

/-- Modelled from the spec: the initial state at the start of the entry block
(spec section 4.2): parameter registers bound to fresh empty `Parameter`
paths, all other registers unbound (`Unknown`). -/
def initState (params : List Reg) : BindingState :=
  bindParams params 0 (fun _ => AccessPath.unknown)

/-- The working state of the fixpoint engine: for each block, either `none`
(bottom: the block has not been reached yet) or its current entry binding
state. -/
abbrev EngineState := List (Option BindingState)

/-- Exit state of block `j` under working state `sigma`: thread the transfer
function across the block's instructions from its entry state (bottom if the
block is still bottom). -/
def blockExit (p : Program) (sigma : EngineState) (j : Nat) : Option BindingState :=
  match nthD sigma j none with
  | none => none
  | some s => some (threadList p.isGetter (blkInsns p j) s)

/-- Join of two optional states, `none` being the bottom (unreachable)
element of spec section 4.2. -/
def joinOpt : Option BindingState → Option BindingState → Option BindingState
  | none, o => o
  | some s, none => some s
  | some s, some t => some (joinBS s t)

/-- Modelled from the spec: the entry state of block `i` recomputed from the
current working state (spec section 4.4): the initial state for the unique
entry block (index 0), otherwise the join of all predecessors' exit states. -/
def computedEntry (p : Program) (sigma : EngineState) (i : Nat) : Option BindingState :=
  if i = 0 then some (initState p.params)
  else ((nthD p.blocks i { insns := [], preds := [] }).preds.map
          (fun j => blockExit p sigma j)).foldl joinOpt none

/-- Modelled from the spec: the widening rule of spec section 4.2.  Comparing a
block's stored entry state with its recomputed one, any register whose value
differs between the two iterations is forced to `Unknown` instead of being
iterated further. -/
def widenFn (o n : BindingState) : BindingState :=
  fun r => if o r = n r then o r else AccessPath.unknown

/-- One block step of a fixpoint pass: a still-bottom block adopts its
recomputed entry state; a reached block whose predecessors yield bottom keeps
its state; otherwise the stored and recomputed entry states are combined by
the widening rule. -/
def stepBlock (p : Program) (sigma : EngineState) (i : Nat) : Option BindingState :=
  match nthD sigma i none, computedEntry p sigma i with
  | none, c => c
  | some o, none => some o
  | some o, some c => some (widenFn o c)

/-- Modelled from the spec: one full pass of the fixpoint engine over all
blocks (spec section 4.4). -/
def passE (p : Program) (sigma : EngineState) : EngineState :=
  tabulate (fun i => stepBlock p sigma i) p.blocks.length

/-- Pointwise equality of two binding states on a register list (spec section
4.2: state equality is register-wise equality; all states the engine produces
agree off `allRegs` anyway). -/
def eqOnR (R : List Reg) (s t : BindingState) : Bool :=
  match R with
  | [] => true
  | r :: rest => decide (s r = t r) && eqOnR rest s t

/-- Equality of two optional entry states on a register list. -/
def optEq (R : List Reg) : Option BindingState → Option BindingState → Bool
  | none, none => true
  | some s, some t => eqOnR R s t
  | none, some _ => false
  | some _, none => false

/-- Bounded universal quantifier over `i < k`, as a boolean. -/
def allUpTo : Nat → (Nat → Bool) → Bool
  | 0, _ => true
  | k + 1, f => allUpTo k f && f k

/-- Convergence check: a further pass changes no block's entry state (spec
section 4.4: a full pass over all blocks with no change = converged). -/
def stableB (p : Program) (sigma : EngineState) : Bool :=
  decide (sigma.length = p.blocks.length) &&
    allUpTo p.blocks.length
      (fun i => optEq (allRegs p) (stepBlock p sigma i) (nthD sigma i none))

/-- Iterate fixpoint passes until convergence, with explicit fuel. -/
def solveFuel (p : Program) : Nat → EngineState → EngineState
  | 0, sigma => sigma
  | k + 1, sigma => if stableB p sigma then sigma else solveFuel p k (passE p sigma)

/-- Number of registers of `R` that a binding state binds to something other
than `Unknown`. -/
def bsCount (R : List Reg) (s : BindingState) : Nat :=
  match R with
  | [] => 0
  | r :: rest => (if s r = AccessPath.unknown then 0 else 1) + bsCount rest s

/-- Termination measure contribution of one block's entry state: bottom counts
`|R| + 1`, a reached state counts its non-`Unknown` bindings. -/
def entryMeasure (R : List Reg) : Option BindingState → Nat
  | none => R.length + 1
  | some s => bsCount R s

/-- Termination measure of a working state: sum of the blocks' contributions. -/
def measureUpTo (R : List Reg) (sigma : EngineState) : Nat → Nat
  | 0 => 0
  | k + 1 => measureUpTo R sigma k + entryMeasure R (nthD sigma k none)

/-- Termination measure of the engine on program `p`. -/
def measureE (p : Program) (sigma : EngineState) : Nat :=
  measureUpTo (allRegs p) sigma p.blocks.length

/-- Fuel sufficient for convergence: one more than the measure of the initial
all-bottom working state. -/
def fuelFor (p : Program) : Nat :=
  p.blocks.length * ((allRegs p).length + 1) + 1

/-- Modelled from the spec: the fixpoint engine (spec section 4.4), run
eagerly to convergence from the all-bottom working state.  The result holds
each block's converged entry state (`none` for unreachable blocks); exit
states are recovered by threading the transfer function. -/
def analyzeStates (p : Program) : EngineState :=
  solveFuel p (fuelFor p) (tabulate (fun _ => none) p.blocks.length)

/-- The converged entry state of block `b` (`none` if the block is
unreachable). -/
def entryState (p : Program) (b : Nat) : Option BindingState :=
  nthD (analyzeStates p) b none

/-- Modelled from the spec: the binding state at the entry of instruction
`i` of block `b` (spec section 4.5): the block's converged entry state,
threaded through the transfer function across the instructions before `i`.
For an unreachable block this is the all-`Unknown` state. -/
def preStateD (p : Program) (b i : Nat) : BindingState :=
  threadList p.isGetter ((blkInsns p b).take i)
    ((entryState p b).getD (fun _ => AccessPath.unknown))

/-- Modelled from the spec: `ImmutableSubcomponentAnalyzer::get_access_path`
(declared in the header, defined in the missing `.cpp`).  Instructions are
identified by (block index, instruction index).  Per spec section 4.5 it
reconstructs the state at the entry of the instruction and returns the path
bound to the register, or no value if the binding is `Unknown`/absent. -/
def get_access_path (p : Program) (reg : Reg) (b i : Nat) : Option AccessPath :=
  match entryState p b with
  | none => none
  | some s =>
    let pre := threadList p.isGetter ((blkInsns p b).take i) s
    if pre reg = AccessPath.unknown then none else some (pre reg)

/-- Modelled from the spec:
`ImmutableSubcomponentAnalyzer::find_access_path_registers` (declared in the
header, defined in the missing `.cpp`).  Per spec section 4.5 it computes the
same pre-instruction binding state as `get_access_path` and returns the set of
registers currently bound to a path equal to the query (an `Unknown` query
never matches a binding, bindings to `Unknown` being absent). -/
def find_access_path_registers (p : Program) (b i : Nat) (path : AccessPath) : List Reg :=
  match entryState p b with
  | none => []
  | some _ =>
    if path = AccessPath.unknown then []
    else ((allRegs p).dedup).filter (fun r => decide (preStateD p b i r = path))


/-- A binding state is supported on a register list: off the list it is
`Unknown` (the implicit-totality convention of spec section 3). -/
def SuppOn (R : List Reg) (s : BindingState) : Prop :=
  ∀ r, r ∉ R → s r = AccessPath.unknown

/-- Support of an optional entry state (`none` is trivially supported). -/
def SuppOpt (R : List Reg) : Option BindingState → Prop
  | none => True
  | some s => SuppOn R s

/-- Every block entry of a working state is supported on the program's
registers. -/
def SuppAll (p : Program) (sigma : EngineState) : Prop :=
  ∀ b, SuppOpt (allRegs p) (nthD sigma b none)

/-- Example method: one block `v1 = p0.getA(); v1 = <non-getter>; <nop>`, the
register-reuse shape of spec Scenario B (parameter register 0, getter method
reference 10). -/
def PB : Program :=
  { blocks := [ { insns := [Instruction.invoke 1 0 10, Instruction.other (some 1),
                            Instruction.other none],
                  preds := [] } ],
    params := [0],
    isGetter := fun m => decide (m = 10) }

/-- The access path `p0.getA()` of the example method `PB`. -/
def pA : AccessPath :=
  { kind := AccessPathKind.Parameter, parameter := 0, getters := [10], field := none }

/-- Minimal one-block method used to instantiate the engine lemmas. -/
def PW : Program :=
  { blocks := [ { insns := [], preds := [] } ],
    params := [0],
    isGetter := fun _ => false }

/-- A binding state binding register 0 to a `Local` path. -/
def s1 : BindingState :=
  setReg (fun _ => AccessPath.unknown) 0 (AccessPath.ctorRoot AccessPathKind.Local 5)

/-- A working state whose single block entry is `s1`. -/
def sigW : EngineState := [some s1]

/-- The all-`Unknown` binding state. -/
def sU : BindingState := fun _ => AccessPath.unknown

/-- A working state whose single block entry is all-`Unknown`. -/
def sigU : EngineState := [some sU]

/-- A final field (`ACC_FINAL` bit set). -/
def fld0 : DexField := { id := 0, access := 16 }

/-- A non-final field (no access bits set). -/
def fldN : DexField := { id := 1, access := 0 }

/-! Helper lemmas: list lookups and `tabulate`. -/

theorem nthD_tabulate {α : Type} (f : Nat → α) (n i : Nat) (d : α) :
    nthD (tabulate f n) i d = if i < n then f i else d := by
  induction n generalizing f i with
  | zero => simp [tabulate, nthD]
  | succ n ih =>
    cases i with
    | zero => simp [tabulate, nthD]
    | succ i =>
      simp only [tabulate, nthD, ih]
      by_cases h : i < n
      · simp [h, Nat.succ_lt_succ h]
      · have : ¬ i + 1 < n + 1 := by omega
        simp [h, this]

theorem length_tabulate {α : Type} (f : Nat → α) (n : Nat) :
    (tabulate f n).length = n := by
  induction n generalizing f with
  | zero => rfl
  | succ n ih => simp [tabulate, ih]

theorem nthD_some_lt {α : Type} (l : List (Option α)) (i : Nat) (x : α)
    (h : nthD l i none = some x) : i < l.length := by
  induction l generalizing i with
  | nil => simp [nthD] at h
  | cons a t ih =>
    cases i with
    | zero => simp
    | succ i =>
      simp only [nthD] at h
      have := ih i h
      simpa using Nat.succ_lt_succ this

theorem nthD_mem {α : Type} (l : List α) (i : Nat) (d : α) (h : i < l.length) :
    nthD l i d ∈ l := by
  induction l generalizing i with
  | nil => simp at h
  | cons a t ih =>
    cases i with
    | zero => simp [nthD]
    | succ i =>
      simp only [nthD]
      exact List.mem_cons_of_mem a (ih i (by simpa using Nat.lt_of_succ_lt_succ h))

theorem nthD_ge {α : Type} (l : List α) (i : Nat) (d : α) (h : l.length ≤ i) :
    nthD l i d = d := by
  induction l generalizing i with
  | nil => cases i <;> rfl
  | cons a t ih =>
    cases i with
    | zero => simp at h
    | succ i => exact ih i (by simpa using Nat.le_of_succ_le_succ h)

/-! Helper lemmas: `eqOnR`, `allUpTo`, `bsCount`. -/

theorem eqOnR_refl (R : List Reg) (s : BindingState) : eqOnR R s s = true := by
  induction R with
  | nil => rfl
  | cons r rest ih => simp [eqOnR, ih]

theorem eqOnR_eq_false {R : List Reg} {s t : BindingState}
    (h : eqOnR R s t = false) : ∃ r, r ∈ R ∧ s r ≠ t r := by
  induction R with
  | nil => simp [eqOnR] at h
  | cons r rest ih =>
    simp only [eqOnR, Bool.and_eq_false_iff] at h
    cases h with
    | inl h => exact ⟨r, by simp, by simpa using h⟩
    | inr h =>
      obtain ⟨r0, hr0, hne⟩ := ih h
      exact ⟨r0, List.mem_cons_of_mem r hr0, hne⟩

theorem allUpTo_eq_false {k : Nat} {f : Nat → Bool}
    (h : allUpTo k f = false) : ∃ i, i < k ∧ f i = false := by
  induction k with
  | zero => simp [allUpTo] at h
  | succ k ih =>
    simp only [allUpTo, Bool.and_eq_false_iff] at h
    cases h with
    | inl h =>
      obtain ⟨i, hi, hf⟩ := ih h
      exact ⟨i, Nat.lt_succ_of_lt hi, hf⟩
    | inr h => exact ⟨k, Nat.lt_succ_self k, h⟩

theorem bsCount_le (R : List Reg) (s : BindingState) : bsCount R s ≤ R.length := by
  induction R with
  | nil => simp [bsCount]
  | cons r rest ih =>
    simp only [bsCount, List.length_cons]
    by_cases h : s r = AccessPath.unknown
    · simp [h]; omega
    · simp [h]; omega

theorem bsCount_mono {R : List Reg} {s t : BindingState}
    (h : ∀ r, s r ≠ AccessPath.unknown → t r ≠ AccessPath.unknown) :
    bsCount R s ≤ bsCount R t := by
  induction R with
  | nil => simp [bsCount]
  | cons r rest ih =>
    simp only [bsCount]
    have hhead : (if s r = AccessPath.unknown then 0 else 1) ≤
        (if t r = AccessPath.unknown then 0 else 1) := by
      by_cases hs : s r = AccessPath.unknown
      · simp [hs]
      · simp [hs, h r hs]
    omega

theorem bsCount_lt {R : List Reg} {s t : BindingState} {r0 : Reg}
    (hmem : r0 ∈ R)
    (h : ∀ r, s r ≠ AccessPath.unknown → t r ≠ AccessPath.unknown)
    (hs0 : s r0 = AccessPath.unknown) (ht0 : t r0 ≠ AccessPath.unknown) :
    bsCount R s < bsCount R t := by
  induction R with
  | nil => simp at hmem
  | cons r rest ih =>
    simp only [bsCount]
    rcases List.mem_cons.mp hmem with hr | hr
    · subst hr
      have htail : bsCount rest s ≤ bsCount rest t := bsCount_mono h
      simp [hs0, ht0]
      omega
    · have hhead : (if s r = AccessPath.unknown then 0 else 1) ≤
          (if t r = AccessPath.unknown then 0 else 1) := by
        by_cases hs : s r = AccessPath.unknown
        · simp [hs]
        · simp [hs, h r hs]
      have htail : bsCount rest s < bsCount rest t := ih hr
      omega

/-! Helper lemmas: the widening rule and single pass steps. -/

theorem widenFn_cases (o c : BindingState) (r : Reg) :
    widenFn o c r = o r ∨ widenFn o c r = AccessPath.unknown := by
  by_cases h : o r = c r <;> simp [widenFn, h]

theorem widenFn_of_unknown {o : BindingState} (c : BindingState) {r : Reg}
    (h : o r = AccessPath.unknown) : widenFn o c r = AccessPath.unknown := by
  show (if o r = c r then o r else AccessPath.unknown) = AccessPath.unknown
  by_cases hc : o r = c r
  · rw [if_pos hc]; exact h
  · rw [if_neg hc]

theorem widenFn_ne {o c : BindingState} {r : Reg}
    (h : widenFn o c r ≠ o r) :
    widenFn o c r = AccessPath.unknown ∧ o r ≠ AccessPath.unknown := by
  rcases widenFn_cases o c r with hw | hw
  · exact absurd hw h
  · refine ⟨hw, fun hU => h ?_⟩
    rw [hw, hU]

theorem passE_length (p : Program) (sigma : EngineState) :
    (passE p sigma).length = p.blocks.length := length_tabulate _ _

theorem nthD_passE {p : Program} {sigma : EngineState} {i : Nat}
    (h : i < p.blocks.length) :
    nthD (passE p sigma) i none = stepBlock p sigma i := by
  unfold passE
  rw [nthD_tabulate]
  simp [h]

theorem nthD_passE_ge {p : Program} {sigma : EngineState} {i : Nat}
    (h : p.blocks.length ≤ i) :
    nthD (passE p sigma) i none = none := by
  unfold passE
  rw [nthD_tabulate]
  simp [Nat.not_lt_of_ge h]

theorem step_measure_le (R : List Reg) (p : Program) (sigma : EngineState) (i : Nat) :
    entryMeasure R (stepBlock p sigma i) ≤ entryMeasure R (nthD sigma i none) := by
  unfold stepBlock
  cases he : nthD sigma i none with
  | none =>
    cases hc : computedEntry p sigma i with
    | none => simp [entryMeasure]
    | some c =>
      simp only [entryMeasure]
      exact Nat.le_succ_of_le (bsCount_le R c)
  | some o =>
    cases hc : computedEntry p sigma i with
    | none => simp [entryMeasure]
    | some c =>
      simp only [entryMeasure]
      refine bsCount_mono (fun r hr => ?_)
      rcases widenFn_cases o c r with hw | hw
      · rw [hw] at hr; exact hr
      · exact absurd hw hr

theorem step_measure_lt {R : List Reg} {p : Program} {sigma : EngineState} {i : Nat}
    (h : optEq R (stepBlock p sigma i) (nthD sigma i none) = false) :
    entryMeasure R (stepBlock p sigma i) < entryMeasure R (nthD sigma i none) := by
  unfold stepBlock at *
  cases he : nthD sigma i none with
  | none =>
    rw [he] at h
    cases hc : computedEntry p sigma i with
    | none => rw [hc] at h; simp [optEq] at h
    | some c =>
      simp only [entryMeasure, hc]
      exact Nat.lt_succ_of_le (bsCount_le R c)
  | some o =>
    rw [he] at h
    cases hc : computedEntry p sigma i with
    | none =>
      rw [hc] at h
      simp only [optEq] at h
      rw [eqOnR_refl] at h
      exact absurd h (by simp)
    | some c =>
      rw [hc] at h
      simp only [optEq] at h
      obtain ⟨r0, hr0, hne⟩ := eqOnR_eq_false h
      have hforced := widenFn_ne hne
      simp only [entryMeasure]
      refine bsCount_lt hr0 (fun r hr => ?_) hforced.1 hforced.2
      rcases widenFn_cases o c r with hw | hw
      · rw [hw] at hr; exact hr
      · exact absurd hw hr

/-! Helper lemmas: the termination measure decreases while unstable. -/

theorem measureUpTo_le {R : List Reg} {s1 s2 : EngineState} (k : Nat)
    (h : ∀ i, i < k → entryMeasure R (nthD s2 i none) ≤ entryMeasure R (nthD s1 i none)) :
    measureUpTo R s2 k ≤ measureUpTo R s1 k := by
  induction k with
  | zero => simp [measureUpTo]
  | succ k ih =>
    simp only [measureUpTo]
    have h1 := ih (fun i hi => h i (Nat.lt_succ_of_lt hi))
    have h2 := h k (Nat.lt_succ_self k)
    omega

theorem measureUpTo_lt {R : List Reg} {s1 s2 : EngineState} (k : Nat)
    (h : ∀ i, i < k → entryMeasure R (nthD s2 i none) ≤ entryMeasure R (nthD s1 i none))
    (hst : ∃ j, j < k ∧ entryMeasure R (nthD s2 j none) < entryMeasure R (nthD s1 j none)) :
    measureUpTo R s2 k < measureUpTo R s1 k := by
  induction k with
  | zero => obtain ⟨j, hj, _⟩ := hst; omega
  | succ k ih =>
    simp only [measureUpTo]
    obtain ⟨j, hj, hlt⟩ := hst
    by_cases hjk : j = k
    · subst hjk
      have h1 := @measureUpTo_le R s1 s2 j
        (fun i hi => h i (Nat.lt_succ_of_lt hi))
      omega
    · have hjlt : j < k := by omega
      have h1 := ih (fun i hi => h i (Nat.lt_succ_of_lt hi)) ⟨j, hjlt, hlt⟩
      have h2 := h k (Nat.lt_succ_self k)
      omega

theorem passE_measure_lt {p : Program} {sigma : EngineState}
    (hlen : sigma.length = p.blocks.length)
    (h : stableB p sigma = false) :
    measureE p (passE p sigma) < measureE p sigma := by
  have hdec : decide (sigma.length = p.blocks.length) = true := decide_eq_true hlen
  simp only [stableB, hdec, Bool.true_and] at h
  obtain ⟨j, hj, hopt⟩ := allUpTo_eq_false h
  unfold measureE
  refine measureUpTo_lt p.blocks.length (fun i hi => ?_) ⟨j, hj, ?_⟩
  · rw [nthD_passE hi]
    exact step_measure_le _ p sigma i
  · rw [nthD_passE hj]
    exact step_measure_lt hopt

theorem solveFuel_stable {p : Program} (k : Nat) (sigma : EngineState)
    (hlen : sigma.length = p.blocks.length)
    (hm : measureE p sigma < k) :
    stableB p (solveFuel p k sigma) = true := by
  induction k generalizing sigma with
  | zero => omega
  | succ k ih =>
    unfold solveFuel
    cases hst : stableB p sigma with
    | true => simp [hst]
    | false =>
      simp only [hst, Bool.false_eq_true, if_false]
      refine ih (passE p sigma) (passE_length p sigma) ?_
      have := passE_measure_lt hlen hst
      omega

theorem measureUpTo_bot {R : List Reg} {sigma : EngineState} (k : Nat)
    (h : ∀ i, i < k → nthD sigma i none = none) :
    measureUpTo R sigma k = k * (R.length + 1) := by
  induction k with
  | zero => simp [measureUpTo]
  | succ k ih =>
    simp only [measureUpTo]
    rw [ih (fun i hi => h i (Nat.lt_succ_of_lt hi)), h k (Nat.lt_succ_self k)]
    simp [entryMeasure]
    ring

theorem analyzeStates_length (p : Program) :
    (analyzeStates p).length = p.blocks.length := by
  unfold analyzeStates
  generalize fuelFor p = k
  generalize hs : tabulate (fun _ => (none : Option BindingState)) p.blocks.length = s0
  have hlen : s0.length = p.blocks.length := by rw [← hs]; exact length_tabulate _ _
  clear hs
  induction k generalizing s0 with
  | zero => simpa [solveFuel]
  | succ k ih =>
    unfold solveFuel
    cases hst : stableB p s0 with
    | true => simpa [hst]
    | false =>
      simp only [hst, Bool.false_eq_true, if_false]
      exact ih (passE p s0) (passE_length p s0)

theorem analyzeStates_stable (p : Program) :
    stableB p (analyzeStates p) = true := by
  unfold analyzeStates
  refine solveFuel_stable (fuelFor p) _ (length_tabulate _ _) ?_
  have hbot : ∀ i, i < p.blocks.length →
      nthD (tabulate (fun _ => (none : Option BindingState)) p.blocks.length) i none = none := by
    intro i hi
    simp [nthD_tabulate, hi]
  unfold measureE fuelFor
  rw [measureUpTo_bot p.blocks.length hbot]
  omega

/-! Helper lemmas: once widened to `Unknown`, a register stays `Unknown`. -/

theorem step_preserves_unknown {p : Program} {sigma : EngineState} {b : Nat}
    {o : BindingState} {r : Reg}
    (hlen : sigma.length = p.blocks.length)
    (hb : nthD sigma b none = some o) (hU : o r = AccessPath.unknown) :
    ∃ o2, nthD (passE p sigma) b none = some o2 ∧ o2 r = AccessPath.unknown := by
  have hblt : b < p.blocks.length := hlen ▸ nthD_some_lt sigma b o hb
  rw [nthD_passE hblt]
  unfold stepBlock
  rw [hb]
  cases hc : computedEntry p sigma b with
  | none => exact ⟨o, rfl, hU⟩
  | some c => exact ⟨widenFn o c, rfl, widenFn_of_unknown c hU⟩

theorem solveFuel_preserves_unknown {p : Program} (k : Nat) (sigma : EngineState)
    {b : Nat} {o : BindingState} {r : Reg}
    (hlen : sigma.length = p.blocks.length)
    (hb : nthD sigma b none = some o) (hU : o r = AccessPath.unknown) :
    ∃ o2, nthD (solveFuel p k sigma) b none = some o2 ∧ o2 r = AccessPath.unknown := by
  induction k generalizing sigma o with
  | zero => exact ⟨o, hb, hU⟩
  | succ k ih =>
    unfold solveFuel
    cases hst : stableB p sigma with
    | true => simpa [hst] using ⟨o, hb, hU⟩
    | false =>
      simp only [hst, Bool.false_eq_true, if_false]
      obtain ⟨o2, h2, hU2⟩ := step_preserves_unknown hlen hb hU
      exact ih (passE p sigma) (passE_length p sigma) h2 hU2

/-! Helper lemmas: join algebra on single access paths. -/

theorem joinVal_self (x : AccessPath) : joinVal x x = x := by simp [joinVal]

theorem joinVal_comm (x y : AccessPath) : joinVal x y = joinVal y x := by
  by_cases h : x = y
  · subst h; rfl
  · have h2 : y ≠ x := fun hyx => h hyx.symm
    unfold joinVal
    rw [if_neg h, if_neg h2]

theorem joinVal_unknown_right (x : AccessPath) :
    joinVal x AccessPath.unknown = AccessPath.unknown := by
  by_cases h : x = AccessPath.unknown
  · simp [joinVal, h]
  · simp [joinVal, h]

theorem joinVal_unknown_left (y : AccessPath) :
    joinVal AccessPath.unknown y = AccessPath.unknown := by
  rw [joinVal_comm]; exact joinVal_unknown_right y

theorem joinVal_assoc (x y z : AccessPath) :
    joinVal (joinVal x y) z = joinVal x (joinVal y z) := by
  by_cases hxy : x = y
  · subst hxy
    rw [joinVal_self]
    by_cases hxz : x = z
    · subst hxz
      rw [joinVal_self, joinVal_self]
    · have h1 : joinVal x z = AccessPath.unknown := by
        unfold joinVal; rw [if_neg hxz]
      rw [h1, joinVal_unknown_right]
  · have h1 : joinVal x y = AccessPath.unknown := by
      unfold joinVal; rw [if_neg hxy]
    rw [h1, joinVal_unknown_left]
    by_cases hyz : y = z
    · subst hyz
      rw [joinVal_self, h1]
    · have h3 : joinVal y z = AccessPath.unknown := by
        unfold joinVal; rw [if_neg hyz]
      rw [h3, joinVal_unknown_right]

/-! Helper lemmas: structural equality of access paths. -/

theorem eqAP_iff_eq (x y : AccessPath) : eqAP x y = true ↔ x = y := by
  obtain ⟨xk, xp, xg, xf⟩ := x
  obtain ⟨yk, yp, yg, yf⟩ := y
  simp only [eqAP, Bool.and_eq_true, decide_eq_true_eq, AccessPath.mk.injEq]
  tauto

/-! Helper lemmas: support of the engine's states on the program registers. -/

theorem suppOn_const (R : List Reg) : SuppOn R (fun _ => AccessPath.unknown) :=
  fun _ _ => rfl

theorem suppOn_setReg {R : List Reg} {s : BindingState} {d : Reg} (v : AccessPath)
    (hs : SuppOn R s) (hd : d ∈ R) : SuppOn R (setReg s d v) := by
  intro r hr
  unfold setReg
  have hrd : r ≠ d := fun h => hr (h ▸ hd)
  rw [if_neg hrd]
  exact hs r hr

theorem suppOn_transfer {R : List Reg} {s : BindingState} {g : DexMethodRef → Bool}
    {ins : Instruction} (hs : SuppOn R s)
    (hregs : ∀ r ∈ instrRegs ins, r ∈ R) : SuppOn R (transfer g s ins) := by
  cases ins with
  | move d src =>
    exact suppOn_setReg _ hs (hregs d (by simp [instrRegs]))
  | invoke d recv m =>
    show SuppOn R (if g m = true then setReg s d (extendGetter (s recv) m)
                   else setReg s d AccessPath.unknown)
    by_cases hg : g m = true
    · rw [if_pos hg]; exact suppOn_setReg _ hs (hregs d (by simp [instrRegs]))
    · rw [if_neg hg]; exact suppOn_setReg _ hs (hregs d (by simp [instrRegs]))
  | iget d recv f =>
    show SuppOn R (if f.isFinal = true then setReg s d (extendFinalField (s recv) f)
                   else setReg s d AccessPath.unknown)
    by_cases hf : f.isFinal = true
    · rw [if_pos hf]; exact suppOn_setReg _ hs (hregs d (by simp [instrRegs]))
    · rw [if_neg hf]; exact suppOn_setReg _ hs (hregs d (by simp [instrRegs]))
  | other od =>
    cases od with
    | none => exact hs
    | some d => exact suppOn_setReg _ hs (hregs d (by simp [instrRegs]))

theorem suppOn_threadList {R : List Reg} {g : DexMethodRef → Bool}
    {l : List Instruction} {s : BindingState} (hs : SuppOn R s)
    (hregs : ∀ ins ∈ l, ∀ r ∈ instrRegs ins, r ∈ R) :
    SuppOn R (threadList g l s) := by
  induction l generalizing s with
  | nil => exact hs
  | cons a t ih =>
    have hstep : SuppOn R (transfer g s a) :=
      suppOn_transfer hs (hregs a (by simp))
    exact ih hstep (fun ins hins => hregs ins (List.mem_cons_of_mem a hins))

theorem insns_regs_sub {p : Program} {b : Nat} {ins : Instruction}
    (h : ins ∈ blkInsns p b) : ∀ r ∈ instrRegs ins, r ∈ allRegs p := by
  intro r hr
  by_cases hb : b < p.blocks.length
  · have hmem : nthD p.blocks b { insns := [], preds := [] } ∈ p.blocks :=
      nthD_mem p.blocks b _ hb
    unfold allRegs
    refine List.mem_append_right _ ?_
    exact List.mem_flatMap.mpr ⟨_, hmem, List.mem_flatMap.mpr ⟨ins, h, hr⟩⟩
  · rw [blkInsns, nthD_ge p.blocks b _ (Nat.le_of_not_lt hb)] at h
    simp at h

theorem suppOn_bindParams {R : List Reg} (ps : List Reg) :
    ∀ (i : Nat) (s : BindingState), SuppOn R s → (∀ r ∈ ps, r ∈ R) →
      SuppOn R (bindParams ps i s) := by
  induction ps with
  | nil => intro i s hs _; exact hs
  | cons q qs ih =>
    intro i s hs hps
    exact ih (i + 1) _ (suppOn_setReg _ hs (hps q (by simp)))
      (fun r hr => hps r (List.mem_cons_of_mem q hr))

theorem suppOn_init (p : Program) : SuppOn (allRegs p) (initState p.params) := by
  refine suppOn_bindParams p.params 0 _ (suppOn_const _) (fun r hr => ?_)
  exact List.mem_append_left _ hr

theorem suppOn_joinBS {R : List Reg} {s t : BindingState}
    (hs : SuppOn R s) (ht : SuppOn R t) : SuppOn R (joinBS s t) := by
  intro r hr
  unfold joinBS
  rw [hs r hr, ht r hr, joinVal_self]

theorem suppOpt_joinOpt {R : List Reg} {x y : Option BindingState}
    (hx : SuppOpt R x) (hy : SuppOpt R y) : SuppOpt R (joinOpt x y) := by
  cases x with
  | none => exact hy
  | some s =>
    cases y with
    | none => exact hx
    | some t => exact suppOn_joinBS hx hy

theorem suppOpt_foldl {R : List Reg} {l : List (Option BindingState)}
    {acc : Option BindingState} (hacc : SuppOpt R acc)
    (hl : ∀ x ∈ l, SuppOpt R x) : SuppOpt R (l.foldl joinOpt acc) := by
  induction l generalizing acc with
  | nil => exact hacc
  | cons a t ih =>
    exact ih (suppOpt_joinOpt hacc (hl a (by simp)))
      (fun x hx => hl x (List.mem_cons_of_mem a hx))

theorem suppOpt_blockExit {p : Program} {sigma : EngineState} (j : Nat)
    (hall : SuppAll p sigma) : SuppOpt (allRegs p) (blockExit p sigma j) := by
  unfold blockExit
  cases he : nthD sigma j none with
  | none => trivial
  | some s =>
    have hsupp : SuppOn (allRegs p) s := by
      have := hall j
      rw [he] at this
      exact this
    exact suppOn_threadList hsupp (fun ins hins => insns_regs_sub hins)

theorem suppOpt_computedEntry {p : Program} {sigma : EngineState} (i : Nat)
    (hall : SuppAll p sigma) : SuppOpt (allRegs p) (computedEntry p sigma i) := by
  unfold computedEntry
  by_cases hi : i = 0
  · rw [if_pos hi]
    exact suppOn_init p
  · rw [if_neg hi]
    refine suppOpt_foldl trivial (fun x hx => ?_)
    obtain ⟨j, _, rfl⟩ := List.mem_map.mp hx
    exact suppOpt_blockExit j hall

theorem suppOn_widenFn {R : List Reg} {o : BindingState} (c : BindingState)
    (ho : SuppOn R o) : SuppOn R (widenFn o c) := by
  intro r hr
  exact widenFn_of_unknown c (ho r hr)

theorem suppAll_passE {p : Program} {sigma : EngineState}
    (hall : SuppAll p sigma) : SuppAll p (passE p sigma) := by
  intro b
  by_cases hb : b < p.blocks.length
  · rw [nthD_passE hb]
    unfold stepBlock
    cases he : nthD sigma b none with
    | none => exact suppOpt_computedEntry b hall
    | some o =>
      have ho : SuppOn (allRegs p) o := by
        have := hall b
        rw [he] at this
        exact this
      cases hc : computedEntry p sigma b with
      | none => exact ho
      | some c => exact suppOn_widenFn c ho
  · rw [nthD_passE_ge (Nat.le_of_not_lt hb)]
    trivial

theorem suppAll_solveFuel {p : Program} (k : Nat) (sigma : EngineState)
    (hall : SuppAll p sigma) : SuppAll p (solveFuel p k sigma) := by
  induction k generalizing sigma with
  | zero => exact hall
  | succ k ih =>
    unfold solveFuel
    cases hst : stableB p sigma with
    | true => simpa [hst] using hall
    | false =>
      simp only [hst, Bool.false_eq_true, if_false]
      exact ih (passE p sigma) (suppAll_passE hall)

theorem suppAll_analyze (p : Program) : SuppAll p (analyzeStates p) := by
  unfold analyzeStates
  refine suppAll_solveFuel _ _ (fun b => ?_)
  rw [nthD_tabulate]
  by_cases hb : b < p.blocks.length
  · simp [hb, SuppOpt]
  · simp [hb, SuppOpt]

theorem suppOn_preStateD (p : Program) (b i : Nat) :
    SuppOn (allRegs p) (preStateD p b i) := by
  unfold preStateD
  have hsub : ∀ ins ∈ (blkInsns p b).take i, ∀ r ∈ instrRegs ins, r ∈ allRegs p :=
    fun ins hins => insns_regs_sub (List.take_subset i (blkInsns p b) hins)
  cases hE : entryState p b with
  | none => exact suppOn_threadList (suppOn_const _) hsub
  | some s =>
    have hsupp : SuppOn (allRegs p) s := by
      have := suppAll_analyze p b
      rw [show nthD (analyzeStates p) b none = entryState p b from rfl, hE] at this
      exact this
    exact suppOn_threadList hsupp hsub

/-! Helper lemmas: threading across an instruction prefix. -/

theorem preStateD_some {p : Program} {b : Nat} {s : BindingState} (i : Nat)
    (h : entryState p b = some s) :
    preStateD p b i = threadList p.isGetter ((blkInsns p b).take i) s := by
  unfold preStateD
  rw [h]
  rfl

theorem threadList_take_succ (g : DexMethodRef → Bool) (l : List Instruction)
    (i : Nat) (s : BindingState) (h : i < l.length) :
    threadList g (l.take (i + 1)) s =
      transfer g (threadList g (l.take i) s) (l.get ⟨i, h⟩) := by
  induction l generalizing i s with
  | nil => simp at h
  | cons a t ih =>
    cases i with
    | zero => rfl
    | succ i =>
      show threadList g (a :: t.take (i + 1)) s = _
      have hstep : threadList g (a :: t.take (i + 1)) s =
          threadList g (t.take (i + 1)) (transfer g s a) := rfl
      rw [hstep]
      exact ih i (transfer g s a) (Nat.lt_of_succ_lt_succ h)

/-! Helper lemmas: equations for the query operations and the block step. -/

theorem stepBlock_some_none {p : Program} {sigma : EngineState} {i : Nat}
    {o : BindingState} (ho : nthD sigma i none = some o)
    (hc : computedEntry p sigma i = none) : stepBlock p sigma i = some o := by
  unfold stepBlock
  rw [ho, hc]

theorem stepBlock_some_some {p : Program} {sigma : EngineState} {i : Nat}
    {o c : BindingState} (ho : nthD sigma i none = some o)
    (hc : computedEntry p sigma i = some c) :
    stepBlock p sigma i = some (widenFn o c) := by
  unfold stepBlock
  rw [ho, hc]

theorem get_access_path_some {p : Program} {reg : Reg} {b : Nat} {s : BindingState}
    (i : Nat) (hE : entryState p b = some s) :
    get_access_path p reg b i =
      if preStateD p b i reg = AccessPath.unknown then none
      else some (preStateD p b i reg) := by
  unfold get_access_path
  rw [hE, preStateD_some i hE]

theorem get_access_path_none {p : Program} {reg : Reg} {b : Nat} (i : Nat)
    (hE : entryState p b = none) : get_access_path p reg b i = none := by
  unfold get_access_path
  rw [hE]

theorem find_regs_some {p : Program} {b : Nat} {s : BindingState} (i : Nat)
    (path : AccessPath) (hE : entryState p b = some s) :
    find_access_path_registers p b i path =
      if path = AccessPath.unknown then []
      else ((allRegs p).dedup).filter (fun r => decide (preStateD p b i r = path)) := by
  unfold find_access_path_registers
  rw [hE]

theorem find_regs_none {p : Program} {b : Nat} (i : Nat) (path : AccessPath)
    (hE : entryState p b = none) : find_access_path_registers p b i path = [] := by
  unfold find_access_path_registers
  rw [hE]

/-! The claims. -/

/-- Claim C1: for every register and instruction (identified by block index
`b` and in-block index `i`), `get_access_path` returns the access path bound
to the register in the binding state at entry to the instruction,
reconstructed by threading the transfer function from the containing block's
entry state across the instructions before it; the result is no value exactly
when that pre-instruction state binds the register to `Unknown` or leaves it
absent (including the unreachable-block case); and the state used for the
query at index `i` excludes the effect of instruction `i` itself — the state
after instruction `i` is one further transfer-function application. -/
theorem get_access_path_spec : ∀ (p : Program) (reg : Reg) (b i : Nat),
    ((entryState p b).isSome = true →
       get_access_path p reg b i =
         if preStateD p b i reg = AccessPath.unknown then none
         else some (preStateD p b i reg)) ∧
    (entryState p b = none → get_access_path p reg b i = none) ∧
    (get_access_path p reg b i = none ↔
       (entryState p b = none ∨ preStateD p b i reg = AccessPath.unknown)) ∧
    (∀ h : i < (blkInsns p b).length,
       preStateD p b (i + 1) =
         transfer p.isGetter (preStateD p b i) ((blkInsns p b).get ⟨i, h⟩)) := by
  intro p reg b i
  refine ⟨?_, ?_, ?_, ?_⟩
  · intro hsome
    obtain ⟨s, hE⟩ := Option.isSome_iff_exists.mp hsome
    exact get_access_path_some i hE
  · intro hE
    exact get_access_path_none i hE
  · cases hE : entryState p b with
    | none =>
      rw [get_access_path_none i hE]
      simp [hE]
    | some s =>
      rw [get_access_path_some i hE]
      by_cases h : preStateD p b i reg = AccessPath.unknown
      · simp [h, hE]
      · simp [h, hE]
  · intro h
    exact threadList_take_succ p.isGetter (blkInsns p b) i
      ((entryState p b).getD (fun _ => AccessPath.unknown)) h

/-- Witness for C1 on the Scenario-B method `PB` (`v1 = p0.getA(); v1 = ...`):
the query at the overwriting instruction is characterized by the
pre-instruction state, the query after it yields no value because the state
then binds `v1` to `Unknown`, and the post-instruction state is one transfer
step beyond the pre-instruction one. -/
theorem get_access_path_spec_witness :
    (get_access_path PB 1 0 1 =
       if preStateD PB 0 1 1 = AccessPath.unknown then none
       else some (preStateD PB 0 1 1)) ∧
    (entryState PB 0 = none ∨ preStateD PB 0 2 1 = AccessPath.unknown) ∧
    preStateD PB 0 2 =
      transfer PB.isGetter (preStateD PB 0 1) ((blkInsns PB 0).get ⟨1, by decide⟩) :=
  ⟨(get_access_path_spec PB 1 0 1).1 (by decide),
   (get_access_path_spec PB 1 0 2).2.2.1.mp (by decide),
   (get_access_path_spec PB 1 0 1).2.2.2 (by decide)⟩

/-- Claim C2: the constructors that build a `FinalField` access path fail
fatally (`always_assert_log`, modelled as `Except.error`) whenever the
supplied field is null/absent or not declared final, and such a construction
succeeds exactly when a non-null, actually-final field is supplied; the
getters-only constructor rejects a `FinalField` construction outright
(attempted without a field). -/
theorem finalField_ctor_validation :
    ∀ (param : Nat) (fld : Option DexField) (getters : List DexMethodRef),
    (isOkE (AccessPath.ctorField AccessPathKind.FinalField param fld getters) = true ↔
       ∃ f, fld = some f ∧ f.isFinal = true) ∧
    (AccessPath.ctorField AccessPathKind.FinalField param none getters =
       Except.error "Must specify a field.") ∧
    (∀ f : DexField, f.isFinal = false →
       AccessPath.ctorField AccessPathKind.FinalField param (some f) getters =
         Except.error "Field should be final!") ∧
    (AccessPath.ctorGetters AccessPathKind.FinalField param getters =
       Except.error "Must specify a field ref") := by
  intro param fld getters
  refine ⟨?_, rfl, ?_, rfl⟩
  · cases fld with
    | none => simp [AccessPath.ctorField, isOkE]
    | some f =>
      by_cases hf : f.isFinal = true
      · simp [AccessPath.ctorField, isOkE, hf]
      · simp [AccessPath.ctorField, isOkE, hf]
  · intro f hf
    simp [AccessPath.ctorField, hf]

/-- Witness for C2: a final field is accepted, a non-final field trips the
"Field should be final!" assertion. -/
theorem finalField_ctor_validation_witness :
    isOkE (AccessPath.ctorField AccessPathKind.FinalField 0 (some fld0) []) = true ∧
    AccessPath.ctorField AccessPathKind.FinalField 0 (some fldN) [] =
      Except.error "Field should be final!" :=
  ⟨(finalField_ctor_validation 0 (some fld0) []).1.mpr ⟨fld0, rfl, rfl⟩,
   (finalField_ctor_validation 0 (some fldN) []).2.2.1 fldN rfl⟩

/-- Claim C3 (code bug): the two-argument constructor
`AccessPath(AccessPathKind::FinalField, 0)` runs no assertion and produces a
path of kind `FinalField` whose field is null, violating the invariant that
`field` is set iff the kind is `FinalField` — the invariant the three- and
four-argument constructors assert ("Must specify a field ref" / "Must specify
a field."). -/
theorem ctorRoot_finalField_no_field :
    (AccessPath.ctorRoot AccessPathKind.FinalField 0).kind = AccessPathKind.FinalField ∧
    (AccessPath.ctorRoot AccessPathKind.FinalField 0).field = none :=
  ⟨rfl, rfl⟩

/-- Claim C4: for every control-flow graph, cyclic ones included, the fixpoint
engine converges within its computed fuel (one more pass changes nothing);
whenever a block's stored entry state and its next-iteration entry state
disagree on a register, the widening rule has forced that register to
`Unknown`; and a register once at `Unknown` stays `Unknown` in every later
iteration through the converged result. -/
theorem engine_terminates_and_widens : ∀ (p : Program),
    stableB p (analyzeStates p) = true ∧
    (∀ (sigma : EngineState) (b : Nat) (o n : BindingState) (r : Reg),
       nthD sigma b none = some o → nthD (passE p sigma) b none = some n →
       o r ≠ n r → n r = AccessPath.unknown) ∧
    (∀ (k : Nat) (sigma : EngineState) (b : Nat) (o : BindingState) (r : Reg),
       sigma.length = p.blocks.length → nthD sigma b none = some o →
       o r = AccessPath.unknown →
       ∃ o2, nthD (solveFuel p k sigma) b none = some o2 ∧
         o2 r = AccessPath.unknown) := by
  intro p
  refine ⟨analyzeStates_stable p, ?_, ?_⟩
  · intro sigma b o n r ho hn hne
    have hblt : b < p.blocks.length := by
      have := nthD_some_lt (passE p sigma) b n hn
      rwa [passE_length] at this
    rw [nthD_passE hblt] at hn
    cases hc : computedEntry p sigma b with
    | none =>
      rw [stepBlock_some_none ho hc] at hn
      have : o = n := Option.some.inj hn
      exact absurd (congrArg (fun f => f r) this) hne
    | some c =>
      rw [stepBlock_some_some ho hc] at hn
      have hwn : widenFn o c = n := Option.some.inj hn
      subst hwn
      exact (widenFn_ne (fun h2 => hne h2.symm)).1
  · intro k sigma b o r hlen hb hU
    exact solveFuel_preserves_unknown k sigma hlen hb hU

/-- Witness for C4: on the one-block method `PW`, the widening rule forces
register 0 (stored as a `Local` path, recomputed as a `Parameter` path) to
`Unknown`, and an `Unknown` binding survives the remaining iterations. -/
theorem engine_terminates_and_widens_witness :
    widenFn s1 (initState PW.params) 0 = AccessPath.unknown ∧
    ∃ o2, nthD (solveFuel PW 3 sigU) 0 none = some o2 ∧ o2 0 = AccessPath.unknown :=
  ⟨(engine_terminates_and_widens PW).2.1 sigW 0 s1 (widenFn s1 (initState PW.params)) 0
      rfl rfl (by decide),
   (engine_terminates_and_widens PW).2.2 3 sigU 0 sU 0 rfl rfl rfl⟩

/-- Claim C5: the join of binding states is computed per register, keeping a
path both sides agree on and yielding `Unknown` otherwise (a register absent
from one side is modelled as bound to `Unknown`, so it falls under the
`Unknown`-absorbing law); join is idempotent, commutative and associative
over binding states, and `Unknown` absorbs per register. -/
theorem join_algebra :
    (∀ s : BindingState, joinBS s s = s) ∧
    (∀ s t : BindingState, joinBS s t = joinBS t s) ∧
    (∀ s t u : BindingState, joinBS (joinBS s t) u = joinBS s (joinBS t u)) ∧
    (∀ x : AccessPath, joinVal x AccessPath.unknown = AccessPath.unknown) ∧
    (∀ x : AccessPath, joinVal x x = x) ∧
    (∀ (s t : BindingState) (r : Reg),
       joinBS s t r = if s r = t r then s r else AccessPath.unknown) :=
  ⟨fun s => funext (fun r => joinVal_self (s r)),
   fun s t => funext (fun r => joinVal_comm (s r) (t r)),
   fun s t u => funext (fun r => joinVal_assoc (s r) (t r) (u r)),
   joinVal_unknown_right,
   joinVal_self,
   fun _ _ _ => rfl⟩

/-- Claim C6: access-path equality is structural — it holds iff kind,
parameter index, field, and getter sequence (in order) are all equal, which
coincides with value identity — and it is reflexive, symmetric, transitive,
and consistent with `hash_value` (equal paths hash equal). -/
theorem accessPath_equality_spec : ∀ x y z : AccessPath,
    (eqAP x y = true ↔
       (x.kind = y.kind ∧ x.parameter = y.parameter ∧ x.field = y.field ∧
        x.getters = y.getters)) ∧
    (eqAP x y = true ↔ x = y) ∧
    eqAP x x = true ∧
    (eqAP x y = true → eqAP y x = true) ∧
    (eqAP x y = true → eqAP y z = true → eqAP x z = true) ∧
    (eqAP x y = true → hash_value x = hash_value y) := by
  intro x y z
  refine ⟨?_, eqAP_iff_eq x y, (eqAP_iff_eq x x).mpr rfl, ?_, ?_, ?_⟩
  · simp only [eqAP, Bool.and_eq_true, decide_eq_true_eq]
    tauto
  · intro h
    exact (eqAP_iff_eq y x).mpr ((eqAP_iff_eq x y).mp h).symm
  · intro h1 h2
    exact (eqAP_iff_eq x z).mpr (((eqAP_iff_eq x y).mp h1).trans ((eqAP_iff_eq y z).mp h2))
  · intro h
    rw [(eqAP_iff_eq x y).mp h]

/-- Witness for C6: symmetry and hash-consistency applied to concrete paths. -/
theorem accessPath_equality_spec_witness :
    eqAP (AccessPath.ctorRoot AccessPathKind.Parameter 3)
        (AccessPath.ctorRoot AccessPathKind.Parameter 3) = true ∧
    hash_value pA = hash_value pA :=
  ⟨(accessPath_equality_spec (AccessPath.ctorRoot AccessPathKind.Parameter 3)
      (AccessPath.ctorRoot AccessPathKind.Parameter 3)
      (AccessPath.ctorRoot AccessPathKind.Parameter 3)).2.2.2.1 (by decide),
   (accessPath_equality_spec pA pA pA).2.2.2.2.2 (by decide)⟩

/-- Claim C7: the `Unknown` access path is the distinguished value produced by
default construction: any two default-constructed values are equal, and it
compares unequal to every path of kind `Parameter`, `Local`, or `FinalField`
(it never matches a concrete derivation). -/
theorem unknown_singleton_spec :
    eqAP AccessPath.ctorDefault AccessPath.ctorDefault = true ∧
    (∀ q : AccessPath, q.kind ≠ AccessPathKind.Unknown →
       eqAP AccessPath.ctorDefault q = false) := by
  refine ⟨by decide, ?_⟩
  intro q hq
  cases hb : eqAP AccessPath.ctorDefault q with
  | false => rfl
  | true =>
    have heq := (eqAP_iff_eq AccessPath.ctorDefault q).mp hb
    rw [← heq] at hq
    exact absurd rfl hq

/-- Witness for C7: the default-constructed value differs from an empty
`Parameter` path. -/
theorem unknown_singleton_spec_witness :
    eqAP AccessPath.ctorDefault (AccessPath.ctorRoot AccessPathKind.Parameter 0) = false :=
  unknown_singleton_spec.2 (AccessPath.ctorRoot AccessPathKind.Parameter 0) (by decide)

/-- Claim C8: `find_access_path_registers` evaluates the same pre-instruction
binding state as `get_access_path` and returns exactly the registers bound in
that state to a path equal to the query: membership holds iff the
pre-instruction state binds the register to the query path and the query is
not `Unknown` (a binding to `Unknown` counts as absent); in particular every
successful `get_access_path` answer is found. -/
theorem find_access_path_registers_spec :
    ∀ (p : Program) (b i : Nat) (path : AccessPath) (r : Reg),
    ((entryState p b).isSome = true →
       (r ∈ find_access_path_registers p b i path ↔
          (preStateD p b i r = path ∧ path ≠ AccessPath.unknown))) ∧
    (get_access_path p r b i = some path →
       r ∈ find_access_path_registers p b i path) := by
  intro p b i path r
  have hmain : (entryState p b).isSome = true →
      (r ∈ find_access_path_registers p b i path ↔
        (preStateD p b i r = path ∧ path ≠ AccessPath.unknown)) := by
    intro hsome
    obtain ⟨s, hE⟩ := Option.isSome_iff_exists.mp hsome
    rw [find_regs_some i path hE]
    by_cases hU : path = AccessPath.unknown
    · rw [if_pos hU]
      constructor
      · intro h
        exact absurd h (List.not_mem_nil r)
      · intro h
        exact absurd hU h.2
    · rw [if_neg hU]
      rw [List.mem_filter]
      constructor
      · intro h
        exact ⟨of_decide_eq_true h.2, hU⟩
      · intro h
        refine ⟨List.mem_dedup.mpr ?_, decide_eq_true h.1⟩
        by_contra hnot
        have hoff := suppOn_preStateD p b i r hnot
        rw [hoff] at h
        exact hU h.1.symm
  refine ⟨hmain, ?_⟩
  intro hget
  cases hE : entryState p b with
  | none =>
    rw [get_access_path_none i hE] at hget
    exact absurd hget (by simp)
  | some s =>
    have hsome : (entryState p b).isSome = true := by rw [hE]; rfl
    rw [get_access_path_some i hE] at hget
    by_cases h : preStateD p b i r = AccessPath.unknown
    · rw [if_pos h] at hget
      exact absurd hget (by simp)
    · rw [if_neg h] at hget
      have heq := Option.some.inj hget
      exact (hmain hsome).mpr ⟨heq, fun hU => h (heq.trans hU)⟩

/-- Witness for C8 on `PB`: register 1 is found for the path `p0.getA()` at
the second instruction, in both directions of the characterization. -/
theorem find_access_path_registers_spec_witness :
    (1 : Reg) ∈ find_access_path_registers PB 0 1 pA ∧
    (preStateD PB 0 1 1 = pA ∧ pA ≠ AccessPath.unknown) :=
  ⟨((find_access_path_registers_spec PB 0 1 pA 1).1 (by decide)).mpr ⟨by decide, by decide⟩,
   ((find_access_path_registers_spec PB 0 1 pA 1).1 (by decide)).mp (by decide)⟩

/-- Claim C9: a default-constructed `AccessPath` (the `Unknown` value) reports
`parameter() == std::numeric_limits<size_t>::max()` (the numeric sentinel
`2^64 - 1` for a 64-bit `size_t`), a null field, and an empty getter
sequence. -/
theorem default_ctor_sentinel :
    AccessPath.ctorDefault.kind = AccessPathKind.Unknown ∧
    AccessPath.ctorDefault.parameter = SIZE_MAX ∧
    SIZE_MAX = 2 ^ 64 - 1 ∧
    AccessPath.ctorDefault.field = none ∧
    AccessPath.ctorDefault.getters = ([] : List DexMethodRef) :=
  ⟨rfl, rfl, by norm_num [SIZE_MAX], rfl, rfl⟩

/-- Claim C10: for every kind other than `FinalField` — `Unknown` and `Local`
included — the two-argument and three-argument constructors never fail: the
two-argument constructor is total for every kind and parameter, the
three-argument constructor accepts any parameter index and getter sequence
whenever the kind is not `FinalField`, and in particular an `Unknown`-kind
path with an arbitrary parameter and a non-empty getter chain is
constructible. -/
theorem nonFinalField_ctors_total :
    ∀ (kind : AccessPathKind) (param : Nat) (getters : List DexMethodRef),
    ((AccessPath.ctorRoot kind param).kind = kind ∧
     (AccessPath.ctorRoot kind param).parameter = param ∧
     (AccessPath.ctorRoot kind param).getters = [] ∧
     (AccessPath.ctorRoot kind param).field = none) ∧
    (kind ≠ AccessPathKind.FinalField →
       AccessPath.ctorGetters kind param getters =
         Except.ok { kind := kind, parameter := param, getters := getters, field := none }) ∧
    isOkE (AccessPath.ctorGetters AccessPathKind.Unknown param getters) = true := by
  intro kind param getters
  refine ⟨⟨rfl, rfl, rfl, rfl⟩, ?_, rfl⟩
  intro hk
  unfold AccessPath.ctorGetters
  rw [if_neg hk]

/-- Witness for C10: an `Unknown`-kind path with parameter 42 and a two-getter
chain is constructed without any assertion firing. -/
theorem nonFinalField_ctors_total_witness :
    AccessPath.ctorGetters AccessPathKind.Unknown 42 [7, 8] =
      Except.ok { kind := AccessPathKind.Unknown, parameter := 42, getters := [7, 8],
                  field := none } :=
  (nonFinalField_ctors_total AccessPathKind.Unknown 42 [7, 8]).2.1 (by decide)
